import Mathlib

/-!
Verification of the CashRegister change-making core: a shallow embedding of
the repository's data model (`currency.rs`), the two change strategies
(`strategy/greedy.rs`, `strategy/random.rs`), the dispatch rule (`rules.rs`)
and the parsing pipeline (`parse.rs`), together with theorems settling the
specification's claims about them.

Machine integers (`u32`, `usize`) are embedded as `Nat`; the two arithmetic
operations of `parse_dollars_to_cents` that Rust leaves unchecked are taken
modulo `2 ^ 32` so that wrap-around is visible.  The injectable random source
(`rand::Rng`, used only through `gen_range(0..=max)`) is embedded as an
explicit state machine: a state type `σ` and a step `gen : σ → Nat → Nat × σ`
returning the drawn value and the advanced state; the contract of
`gen_range(0..=m)` — the draw lies in `[0, m]` — is carried as a hypothesis
where a theorem needs it.
-/

/-! ## Data model: `src/currency.rs` -/

/-- `Denomination` from `currency.rs`: value in cents plus display names. -/
structure Denomination where
  cents : Nat
  singular : String
  plural : String
deriving DecidableEq

/-- `Currency` from `currency.rs`: name, symbol, denominations largest first. -/
structure Currency where
  name : String
  symbol : String
  denominations : List Denomination
deriving DecidableEq

/-- The `USD` table of `currency.rs`. -/
def USD : Currency :=
  { name := "USD"
    symbol := "$"
    denominations :=
      [ { cents := 100, singular := "dollar", plural := "dollars" }
      , { cents := 25, singular := "quarter", plural := "quarters" }
      , { cents := 10, singular := "dime", plural := "dimes" }
      , { cents := 5, singular := "nickel", plural := "nickels" }
      , { cents := 1, singular := "penny", plural := "pennies" } ] }

/-- The `EUR` table of `currency.rs`. -/
def EUR : Currency :=
  { name := "EUR"
    symbol := "€"
    denominations :=
      [ { cents := 200, singular := "2 euro coin", plural := "2 euro coins" }
      , { cents := 100, singular := "1 euro coin", plural := "1 euro coins" }
      , { cents := 50, singular := "50 cent coin", plural := "50 cent coins" }
      , { cents := 20, singular := "20 cent coin", plural := "20 cent coins" }
      , { cents := 10, singular := "10 cent coin", plural := "10 cent coins" }
      , { cents := 5, singular := "5 cent coin", plural := "5 cent coins" }
      , { cents := 2, singular := "2 cent coin", plural := "2 cent coins" }
      , { cents := 1, singular := "1 cent coin", plural := "1 cent coins" } ] }

/-- The currency-table invariant "strictly descending by cent value"
(`usd_denominations_are_sorted_descending` in `currency.rs`). -/
def descendingB : List Denomination → Bool
  | [] => true
  | [_] => true
  | d1 :: d2 :: rest => decide (d2.cents < d1.cents) && descendingB (d2 :: rest)

/-- The currency-table invariant "the last denomination is worth 1 cent"
(`usd_smallest_denomination_is_one_cent` in `currency.rs`). -/
def endsInOneB : List Denomination → Bool
  | [] => false
  | [d] => decide (d.cents = 1)
  | _ :: d2 :: rest => endsInOneB (d2 :: rest)

/-! ## Breakdowns: `src/strategy/mod.rs`

`Breakdown = Vec<(Denomination, u32)>` becomes `List (Denomination × Nat)`. -/

/-- Total value of a breakdown in cents: `breakdown.iter().map(|(d, c)| d.cents * c).sum()`
as the repository's tests compute it. -/
def breakdownSum (b : List (Denomination × Nat)) : Nat :=
  (b.map fun p => p.1.cents * p.2).sum

/-- Total number of coins and bills a breakdown hands out. -/
def breakdownCoins (b : List (Denomination × Nat)) : Nat :=
  (b.map fun p => p.2).sum

/-- Value in cents of an assignment of counts to a denomination table,
position by position. -/
def lineValue (ds : List Denomination) (counts : List Nat) : Nat :=
  (List.zipWith (fun d c => d.cents * c) ds counts).sum

/-! ## Greedy strategy: `src/strategy/greedy.rs` -/

/-- `GreedyStrategy::make_change`: walk the denominations largest to smallest,
take `cents / denom.cents` of each, stop once nothing remains. -/
def greedy_make_change : Nat → List Denomination → List (Denomination × Nat)
  | _, [] => []
  | cents, d :: rest =>
    if cents = 0 then []
    else if 0 < cents / d.cents then
      (d, cents / d.cents) :: greedy_make_change (cents - cents / d.cents * d.cents) rest
    else greedy_make_change cents rest

/-! ## Random strategy: `src/strategy/random.rs` -/

/-- The count chosen at one denomination of `RandomStrategy::make_change`:
`max_count` itself for the last denomination, otherwise
`rng.gen_range(0..=max_count)`, which advances the random source. -/
def drawCount {σ : Type} (gen : σ → Nat → Nat × σ) (isLast : Bool)
    (maxCount : Nat) (s : σ) : Nat × σ :=
  if isLast then (maxCount, s) else gen s maxCount

/-- `RandomStrategy::make_change`: walk the denominations largest to smallest;
at each one with a nonzero `max_count = cents / denom.cents` draw a count
(the last denomination is forced to absorb the remainder), emit it when
positive and subtract its value.  Returns the breakdown and the final state
of the random source. -/
def randomMakeChange {σ : Type} (gen : σ → Nat → Nat × σ) :
    Nat → List Denomination → σ → List (Denomination × Nat) × σ
  | _, [], s => ([], s)
  | cents, d :: rest, s =>
    if cents = 0 then ([], s)
    else if cents / d.cents = 0 then randomMakeChange gen cents rest s
    else
      let cnt := drawCount gen rest.isEmpty (cents / d.cents) s
      if 0 < cnt.1 then
        let q := randomMakeChange gen (cents - cnt.1 * d.cents) rest cnt.2
        ((d, cnt.1) :: q.1, q.2)
      else randomMakeChange gen cents rest cnt.2

example : (greedy_make_change 88 USD.denominations).map (fun p => (p.1.cents, p.2))
    = [(25, 3), (10, 1), (1, 3)] := by decide

example : breakdownSum (greedy_make_change 9999 USD.denominations) = 9999 := by decide

example : breakdownSum (randomMakeChange (fun (s : Nat) m => (s % (m + 1), s + 1))
    167 USD.denominations 7).1 = 167 := by decide

/-! ## Exactness of the two strategies -/

/-- One-step unfolding of the greedy walk at a non-empty table. -/
theorem greedy_make_change_cons (cents : Nat) (d : Denomination)
    (rest : List Denomination) :
    greedy_make_change cents (d :: rest) =
      if cents = 0 then []
      else if 0 < cents / d.cents then
        (d, cents / d.cents) :: greedy_make_change (cents - cents / d.cents * d.cents) rest
      else greedy_make_change cents rest := by
  rw [greedy_make_change]

/-- One-step unfolding of the random walk at a non-empty table. -/
theorem randomMakeChange_cons {σ : Type} (gen : σ → Nat → Nat × σ)
    (cents : Nat) (d : Denomination) (rest : List Denomination) (s : σ) :
    randomMakeChange gen cents (d :: rest) s =
      if cents = 0 then ([], s)
      else if cents / d.cents = 0 then randomMakeChange gen cents rest s
      else
        let cnt := drawCount gen rest.isEmpty (cents / d.cents) s
        if 0 < cnt.1 then
          let q := randomMakeChange gen (cents - cnt.1 * d.cents) rest cnt.2
          ((d, cnt.1) :: q.1, q.2)
        else randomMakeChange gen cents rest cnt.2 := by
  rw [randomMakeChange]

/-- Greedy walk invariant: when the table ends in a 1-cent denomination the
emitted breakdown accounts for every cent. -/
theorem greedy_sum_eq : ∀ (ds : List Denomination), endsInOneB ds = true →
    ∀ cents, breakdownSum (greedy_make_change cents ds) = cents := by
  intro ds
  induction ds with
  | nil => intro h; simp [endsInOneB] at h
  | cons d rest ih =>
    intro hone cents
    rw [greedy_make_change_cons]
    by_cases h0 : cents = 0
    · simp [h0, breakdownSum]
    · cases rest with
      | nil =>
        have hd : d.cents = 1 := by simpa [endsInOneB] using hone
        have hq : 0 < cents / d.cents := by
          rw [hd, Nat.div_one]; exact Nat.pos_of_ne_zero h0
        simp only [if_neg h0, if_pos hq, hd, Nat.div_one, Nat.mul_one,
          Nat.sub_self, breakdownSum, List.map_cons, List.sum_cons]
        simp [greedy_make_change, breakdownSum, Nat.pos_of_ne_zero h0, hd]
      | cons d2 rest2 =>
        have hone2 : endsInOneB (d2 :: rest2) = true := by
          simpa [endsInOneB] using hone
        by_cases hq : 0 < cents / d.cents
        · have hmul : cents / d.cents * d.cents ≤ cents := Nat.div_mul_le_self cents d.cents
          have hrec := ih hone2 (cents - cents / d.cents * d.cents)
          simp only [breakdownSum] at hrec
          simp only [if_neg h0, if_pos hq, breakdownSum, List.map_cons, List.sum_cons]
          rw [hrec, Nat.mul_comm d.cents (cents / d.cents)]
          exact Nat.add_sub_cancel' hmul
        · simpa [if_neg h0, if_neg hq] using ih hone2 cents

/-- Random walk invariant: if every draw respects the `gen_range(0..=max)`
contract and the table ends in a 1-cent denomination, the breakdown accounts
for every cent — the last denomination absorbs the remainder. -/
theorem random_sum_eq {σ : Type} (gen : σ → Nat → Nat × σ)
    (hgen : ∀ s m, (gen s m).1 ≤ m) :
    ∀ (ds : List Denomination), endsInOneB ds = true →
      ∀ (cents : Nat) (s : σ),
        breakdownSum (randomMakeChange gen cents ds s).1 = cents := by
  intro ds
  induction ds with
  | nil => intro h; simp [endsInOneB] at h
  | cons d rest ih =>
    intro hone cents s
    rw [randomMakeChange_cons]
    by_cases h0 : cents = 0
    · simp [h0, breakdownSum]
    · cases rest with
      | nil =>
        have hd : d.cents = 1 := by simpa [endsInOneB] using hone
        have hq : ¬ cents / d.cents = 0 := by
          rw [hd, Nat.div_one]; exact h0
        have hpos : 0 < cents := Nat.pos_of_ne_zero h0
        simp only [if_neg h0, if_neg hq, List.isEmpty_nil, drawCount, if_pos rfl,
          hd, Nat.div_one, Nat.mul_one, Nat.sub_self, ite_true]
        simp [hpos, randomMakeChange, breakdownSum, hd]
      | cons d2 rest2 =>
        have hone2 : endsInOneB (d2 :: rest2) = true := by
          simpa [endsInOneB] using hone
        simp only [List.isEmpty_cons]
        by_cases hq : cents / d.cents = 0
        · simpa [if_neg h0, hq] using ih hone2 cents s
        · have hcle : (drawCount gen false (cents / d.cents) s).1
              ≤ cents / d.cents := by
            simpa [drawCount] using hgen s (cents / d.cents)
          by_cases hpos : 0 < (drawCount gen false (cents / d.cents) s).1
          · have hmul : (drawCount gen false (cents / d.cents) s).1 * d.cents
                ≤ cents :=
              le_trans (Nat.mul_le_mul_right d.cents hcle) (Nat.div_mul_le_self cents d.cents)
            have hrec := ih hone2
              (cents - (drawCount gen false (cents / d.cents) s).1 * d.cents)
              (drawCount gen false (cents / d.cents) s).2
            simp only [breakdownSum] at hrec
            simp only [if_neg h0, if_neg hq, if_pos hpos, breakdownSum,
              List.map_cons, List.sum_cons]
            rw [hrec, Nat.mul_comm d.cents _]
            exact Nat.add_sub_cancel' hmul
          · simpa [if_neg h0, if_neg hq, if_neg hpos] using ih hone2 cents
              (drawCount gen false (cents / d.cents) s).2

/-- Every entry the random strategy emits has a strictly positive count and a
denomination drawn from the supplied table. -/
theorem random_pos_mem {σ : Type} (gen : σ → Nat → Nat × σ) :
    ∀ (ds : List Denomination) (cents : Nat) (s : σ),
      ∀ p ∈ (randomMakeChange gen cents ds s).1, 0 < p.2 ∧ p.1 ∈ ds := by
  intro ds
  induction ds with
  | nil => intro cents s p hp; simp [randomMakeChange] at hp
  | cons d rest ih =>
    intro cents s p hp
    rw [randomMakeChange_cons] at hp
    by_cases h0 : cents = 0
    · simp [h0] at hp
    · by_cases hq : cents / d.cents = 0
      · simp only [if_neg h0, if_pos hq] at hp
        rcases ih cents s p hp with ⟨h1, h2⟩
        exact ⟨h1, List.mem_cons_of_mem _ h2⟩
      · by_cases hpos : 0 < (drawCount gen rest.isEmpty (cents / d.cents) s).1
        · simp only [if_neg h0, if_neg hq, if_pos hpos, List.mem_cons] at hp
          rcases hp with rfl | hp
          · exact ⟨hpos, List.mem_cons_self _ _⟩
          · rcases ih _ _ p hp with ⟨h1, h2⟩
            exact ⟨h1, List.mem_cons_of_mem _ h2⟩
        · simp only [if_neg h0, if_neg hq, if_neg hpos] at hp
          rcases ih _ _ p hp with ⟨h1, h2⟩
          exact ⟨h1, List.mem_cons_of_mem _ h2⟩

/-! ## Claim C1, C2, C6 theorems -/

/-- A concrete injectable random source used to instantiate theorems about the
random strategy: state is a `Nat` seed, the draw in `[0, m]` is `s % (m + 1)`. -/
def genModel (s m : Nat) : Nat × Nat := (s % (m + 1), s + 1)

/-- `genModel` obeys the `gen_range(0..=max)` contract. -/
theorem genModel_le (s m : Nat) : (genModel s m).1 ≤ m :=
  Nat.lt_succ_iff.mp (Nat.mod_lt s (Nat.succ_pos m))

/-- C1: for every target, every random source respecting the
`gen_range(0..=max)` contract and every currency whose table is strictly
descending and ends in a 1-cent denomination, `RandomStrategy::make_change`
returns a breakdown that sums exactly to the target, every emitted count is
strictly positive, and every denomination used belongs to the table. -/
theorem c1_random_strategy_exact {σ : Type} (gen : σ → Nat → Nat × σ) (s : σ)
    (target : Nat) (c : Currency)
    (hgen : ∀ st m, (gen st m).1 ≤ m)
    (hdesc : descendingB c.denominations = true)
    (hone : endsInOneB c.denominations = true) :
    breakdownSum (randomMakeChange gen target c.denominations s).1 = target
    ∧ ∀ p ∈ (randomMakeChange gen target c.denominations s).1,
        0 < p.2 ∧ p.1 ∈ c.denominations :=
  ⟨random_sum_eq gen hgen c.denominations hone target s,
   random_pos_mem gen c.denominations target s⟩

/-- C1 witness: the random strategy at target 167 cents over USD with the
concrete seeded source `genModel` started at seed 7. -/
theorem c1_random_strategy_exact_witness :
    breakdownSum (randomMakeChange genModel 167 USD.denominations 7).1 = 167
    ∧ ∀ p ∈ (randomMakeChange genModel 167 USD.denominations 7).1,
        0 < p.2 ∧ p.1 ∈ USD.denominations :=
  c1_random_strategy_exact genModel 7 167 USD genModel_le (by decide) (by decide)

/-- C2: for every target and every currency table that is strictly descending
and ends in a 1-cent denomination, `GreedyStrategy::make_change` returns a
breakdown that sums exactly to the target. -/
theorem c2_greedy_strategy_exact (target : Nat) (c : Currency)
    (hdesc : descendingB c.denominations = true)
    (hone : endsInOneB c.denominations = true) :
    breakdownSum (greedy_make_change target c.denominations) = target :=
  greedy_sum_eq c.denominations hone target

/-- C2 witness: greedy change for 88 cents over USD sums to 88. -/
theorem c2_greedy_strategy_exact_witness :
    breakdownSum (greedy_make_change 88 USD.denominations) = 88 :=
  c2_greedy_strategy_exact 88 USD (by decide) (by decide)

/-- C6: the random strategy is deterministic in its inputs — two runs from the
same random source state, the same target and the same currency return the
same breakdown sequence (and the same final source state). -/
theorem c6_random_strategy_deterministic {σ : Type} (gen : σ → Nat → Nat × σ)
    (s1 s2 : σ) (t1 t2 : Nat) (c1 c2 : Currency)
    (hs : s1 = s2) (ht : t1 = t2) (hc : c1 = c2) :
    randomMakeChange gen t1 c1.denominations s1
      = randomMakeChange gen t2 c2.denominations s2 := by
  subst hs; subst ht; subst hc; rfl

/-- C6 witness: two runs from seed 42, target 167, USD coincide. -/
theorem c6_random_strategy_deterministic_witness :
    randomMakeChange genModel 167 USD.denominations 42
      = randomMakeChange genModel 167 USD.denominations 42 :=
  c6_random_strategy_deterministic genModel 42 42 167 167 USD USD rfl rfl rfl

/-! ## Claim C3: greedy optimality on the two reference tables -/

/-- Coin count of the greedy walk, as a recurrence on the remaining cents. -/
def greedyCoinsAux : Nat → List Denomination → Nat
  | _, [] => 0
  | cents, d :: rest => cents / d.cents + greedyCoinsAux (cents - cents / d.cents * d.cents) rest

theorem greedyCoinsAux_zero : ∀ ds, greedyCoinsAux 0 ds = 0 := by
  intro ds
  induction ds with
  | nil => rfl
  | cons d rest ih => simp [greedyCoinsAux, ih]

/-- The number of coins the greedy strategy emits equals the recurrence
`greedyCoinsAux` (emitting nothing for a zero count changes no total). -/
theorem greedy_coins_general : ∀ (ds : List Denomination) (cents : Nat),
    breakdownCoins (greedy_make_change cents ds) = greedyCoinsAux cents ds := by
  intro ds
  induction ds with
  | nil => intro cents; rfl
  | cons d rest ih =>
    intro cents
    rw [greedy_make_change_cons]
    by_cases h0 : cents = 0
    · subst h0
      simp [breakdownCoins, greedyCoinsAux, greedyCoinsAux_zero]
    · by_cases hq : 0 < cents / d.cents
      · have hrec := ih (cents - cents / d.cents * d.cents)
        simp only [breakdownCoins] at hrec
        simp only [if_neg h0, if_pos hq, breakdownCoins, List.map_cons, List.sum_cons,
          greedyCoinsAux]
        rw [hrec]
      · have hz : cents / d.cents = 0 := Nat.eq_zero_of_not_pos hq
        have hrec := ih cents
        simp only [if_neg h0, if_neg hq, greedyCoinsAux, hz, Nat.zero_mul,
          Nat.sub_zero, Nat.zero_add]
        exact hrec

theorem greedyCoinsAux_nil (cents : Nat) : greedyCoinsAux cents [] = 0 := rfl

theorem greedyCoinsAux_cons (cents : Nat) (d : Denomination) (rest : List Denomination) :
    greedyCoinsAux cents (d :: rest)
      = cents / d.cents + greedyCoinsAux (cents - cents / d.cents * d.cents) rest := by
  rw [greedyCoinsAux]

/-- The greedy coin count over USD in closed form. -/
theorem usd_coins_formula (n : Nat) :
    breakdownCoins (greedy_make_change n USD.denominations)
      = n / 100 + n % 100 / 25 + n % 100 % 25 / 10 + n % 100 % 25 % 10 / 5
        + n % 100 % 25 % 10 % 5 := by
  rw [greedy_coins_general]
  dsimp only [USD]
  rw [greedyCoinsAux_cons, greedyCoinsAux_cons, greedyCoinsAux_cons, greedyCoinsAux_cons,
    greedyCoinsAux_cons, greedyCoinsAux_nil]
  dsimp only
  omega

/-- The greedy coin count over EUR in closed form. -/
theorem eur_coins_formula (n : Nat) :
    breakdownCoins (greedy_make_change n EUR.denominations)
      = n / 200 + n % 200 / 100 + n % 200 % 100 / 50 + n % 200 % 100 % 50 / 20
        + n % 200 % 100 % 50 % 20 / 10 + n % 200 % 100 % 50 % 20 % 10 / 5
        + n % 200 % 100 % 50 % 20 % 10 % 5 / 2 + n % 200 % 100 % 50 % 20 % 10 % 5 % 2 := by
  rw [greedy_coins_general]
  dsimp only [EUR]
  rw [greedyCoinsAux_cons]; dsimp only
  rw [show n - n / 200 * 200 = n % 200 from by omega]
  rw [greedyCoinsAux_cons]; dsimp only
  rw [show n % 200 - n % 200 / 100 * 100 = n % 200 % 100 from by omega]
  rw [greedyCoinsAux_cons]; dsimp only
  rw [show n % 200 % 100 - n % 200 % 100 / 50 * 50 = n % 200 % 100 % 50 from by omega]
  rw [greedyCoinsAux_cons]; dsimp only
  rw [show n % 200 % 100 % 50 - n % 200 % 100 % 50 / 20 * 20 = n % 200 % 100 % 50 % 20 from by
    omega]
  rw [greedyCoinsAux_cons]; dsimp only
  rw [show n % 200 % 100 % 50 % 20 - n % 200 % 100 % 50 % 20 / 10 * 10
      = n % 200 % 100 % 50 % 20 % 10 from by omega]
  rw [greedyCoinsAux_cons]; dsimp only
  rw [show n % 200 % 100 % 50 % 20 % 10 - n % 200 % 100 % 50 % 20 % 10 / 5 * 5
      = n % 200 % 100 % 50 % 20 % 10 % 5 from by omega]
  rw [greedyCoinsAux_cons]; dsimp only
  rw [show n % 200 % 100 % 50 % 20 % 10 % 5 - n % 200 % 100 % 50 % 20 % 10 % 5 / 2 * 2
      = n % 200 % 100 % 50 % 20 % 10 % 5 % 2 from by omega]
  rw [greedyCoinsAux_cons, greedyCoinsAux_nil]
  dsimp only
  omega

/-- Minimality of the greedy coin count over the USD table: any five counts
of dollars, quarters, dimes, nickels and pennies worth `n` cents use at least
as many coins as greedy.  Strong induction on a bound `t` for the total count:
a representation violating the canonical-form bounds merges coins (five
pennies into a nickel, two nickels into a dime, and so on) without changing
the value while strictly shrinking the count; a canonical representation is
exactly the greedy one. -/
theorem usd_min_coins : ∀ (t a b c d e n : Nat), a + b + c + d + e ≤ t →
    100 * a + 25 * b + 10 * c + 5 * d + e = n →
    n / 100 + n % 100 / 25 + n % 100 % 25 / 10 + n % 100 % 25 % 10 / 5 + n % 100 % 25 % 10 % 5
      ≤ a + b + c + d + e := by
  intro t
  induction t with
  | zero =>
    intro a b c d e n hle hv
    have hz : n = 0 := by omega
    subst hz
    simp
  | succ t ih =>
    intro a b c d e n hle hv
    by_cases h1 : 5 ≤ e
    · have h := ih a b c (d + 1) (e - 5) n (by omega) (by omega)
      exact le_trans h (by omega)
    · by_cases h2 : 2 ≤ d
      · have h := ih a b (c + 1) (d - 2) e n (by omega) (by omega)
        exact le_trans h (by omega)
      · by_cases h3 : 3 ≤ c
        · have h := ih a (b + 1) (c - 3) (d + 1) e n (by omega) (by omega)
          exact le_trans h (by omega)
        · by_cases h4 : c = 2 ∧ 1 ≤ d
          · have h := ih a (b + 1) (c - 2) (d - 1) e n (by omega) (by omega)
            exact le_trans h (by omega)
          · by_cases h5 : 4 ≤ b
            · have h := ih (a + 1) (b - 4) c d e n (by omega) (by omega)
              exact le_trans h (by omega)
            · have he : e ≤ 4 := by omega
              have hd : d ≤ 1 := by omega
              have hc : c ≤ 2 := by omega
              have hcd : c = 2 → d = 0 := fun hc2 => by
                by_contra hne
                exact h4 ⟨hc2, Nat.pos_of_ne_zero hne⟩
              have hb : b ≤ 3 := by omega
              have s1 : 25 * b + 10 * c + 5 * d + e ≤ 99 := by
                rcases Nat.eq_or_lt_of_le hc with hc2 | hc1
                · have := hcd hc2; omega
                · omega
              have ha : a = n / 100 := by omega
              have ha2 : 25 * b + 10 * c + 5 * d + e = n % 100 := by omega
              have s2 : 10 * c + 5 * d + e ≤ 24 := by
                rcases Nat.eq_or_lt_of_le hc with hc2 | hc1
                · have := hcd hc2; omega
                · omega
              have hbq : b = n % 100 / 25 := by omega
              have hb2 : 10 * c + 5 * d + e = n % 100 % 25 := by omega
              have hcq : c = n % 100 % 25 / 10 := by omega
              have hc2 : 5 * d + e = n % 100 % 25 % 10 := by omega
              have hdq : d = n % 100 % 25 % 10 / 5 := by omega
              have heq : e = n % 100 % 25 % 10 % 5 := by omega
              omega

/-- Minimality of the greedy coin count over the EUR table, by the same
exchange argument: any eight counts worth `n` cents use at least as many
coins as greedy. -/
theorem eur_min_coins : ∀ (t a b c d e f g k n : Nat),
    a + b + c + d + e + f + g + k ≤ t →
    200 * a + 100 * b + 50 * c + 20 * d + 10 * e + 5 * f + 2 * g + k = n →
    n / 200 + n % 200 / 100 + n % 200 % 100 / 50 + n % 200 % 100 % 50 / 20
      + n % 200 % 100 % 50 % 20 / 10 + n % 200 % 100 % 50 % 20 % 10 / 5
      + n % 200 % 100 % 50 % 20 % 10 % 5 / 2 + n % 200 % 100 % 50 % 20 % 10 % 5 % 2
      ≤ a + b + c + d + e + f + g + k := by
  intro t
  induction t with
  | zero =>
    intro a b c d e f g k n hle hv
    have hz : n = 0 := by omega
    subst hz
    simp
  | succ t ih =>
    intro a b c d e f g k n hle hv
    by_cases h1 : 2 ≤ k
    · have h := ih a b c d e f (g + 1) (k - 2) n (by omega) (by omega)
      exact le_trans h (by omega)
    · by_cases h2 : 3 ≤ g
      · have h := ih a b c d e (f + 1) (g - 3) (k + 1) n (by omega) (by omega)
        exact le_trans h (by omega)
      · by_cases h3 : g = 2 ∧ 1 ≤ k
        · have h := ih a b c d e (f + 1) (g - 2) (k - 1) n (by omega) (by omega)
          exact le_trans h (by omega)
        · by_cases h4 : 2 ≤ f
          · have h := ih a b c d (e + 1) (f - 2) g k n (by omega) (by omega)
            exact le_trans h (by omega)
          · by_cases h5 : 2 ≤ e
            · have h := ih a b c (d + 1) (e - 2) f g k n (by omega) (by omega)
              exact le_trans h (by omega)
            · by_cases h6 : 3 ≤ d
              · have h := ih a b (c + 1) (d - 3) (e + 1) f g k n (by omega) (by omega)
                exact le_trans h (by omega)
              · by_cases h7 : d = 2 ∧ 1 ≤ e
                · have h := ih a b (c + 1) (d - 2) (e - 1) f g k n (by omega) (by omega)
                  exact le_trans h (by omega)
                · by_cases h8 : 2 ≤ c
                  · have h := ih a (b + 1) (c - 2) d e f g k n (by omega) (by omega)
                    exact le_trans h (by omega)
                  · by_cases h9 : 2 ≤ b
                    · have h := ih (a + 1) (b - 2) c d e f g k n (by omega) (by omega)
                      exact le_trans h (by omega)
                    · have hk : k ≤ 1 := by omega
                      have hg : g ≤ 2 := by omega
                      have hgk : g = 2 → k = 0 := fun hg2 => by
                        by_contra hne
                        exact h3 ⟨hg2, Nat.pos_of_ne_zero hne⟩
                      have hf : f ≤ 1 := by omega
                      have he : e ≤ 1 := by omega
                      have hdd : d ≤ 2 := by omega
                      have hde : d = 2 → e = 0 := fun hd2 => by
                        by_contra hne
                        exact h7 ⟨hd2, Nat.pos_of_ne_zero hne⟩
                      have hcc : c ≤ 1 := by omega
                      have hbb : b ≤ 1 := by omega
                      clear ih hle h1 h2 h3 h4 h5 h6 h7 h8 h9
                      have t1 : 100 * b + 50 * c + 20 * d + 10 * e + 5 * f + 2 * g + k ≤ 199 := by
                        omega
                      have ha : a = n / 200 := by omega
                      have ra : 100 * b + 50 * c + 20 * d + 10 * e + 5 * f + 2 * g + k
                          = n % 200 := by omega
                      have t2 : 50 * c + 20 * d + 10 * e + 5 * f + 2 * g + k ≤ 99 := by omega
                      have hbq : b = n % 200 / 100 := by omega
                      have rb : 50 * c + 20 * d + 10 * e + 5 * f + 2 * g + k
                          = n % 200 % 100 := by omega
                      have t3 : 20 * d + 10 * e + 5 * f + 2 * g + k ≤ 49 := by omega
                      have hcq : c = n % 200 % 100 / 50 := by omega
                      have rc : 20 * d + 10 * e + 5 * f + 2 * g + k = n % 200 % 100 % 50 := by
                        omega
                      have t4 : 10 * e + 5 * f + 2 * g + k ≤ 19 := by omega
                      have hdq : d = n % 200 % 100 % 50 / 20 := by omega
                      have rd : 10 * e + 5 * f + 2 * g + k = n % 200 % 100 % 50 % 20 := by omega
                      have t5 : 5 * f + 2 * g + k ≤ 9 := by omega
                      have heq : e = n % 200 % 100 % 50 % 20 / 10 := by omega
                      have re : 5 * f + 2 * g + k = n % 200 % 100 % 50 % 20 % 10 := by omega
                      have t6 : 2 * g + k ≤ 4 := by omega
                      have hfq : f = n % 200 % 100 % 50 % 20 % 10 / 5 := by omega
                      have rf : 2 * g + k = n % 200 % 100 % 50 % 20 % 10 % 5 := by omega
                      have hgq : g = n % 200 % 100 % 50 % 20 % 10 % 5 / 2 := by omega
                      have hkq : k = n % 200 % 100 % 50 % 20 % 10 % 5 % 2 := by omega
                      omega

/-- C3: for the two reference tables USD and EUR and every target, no
assignment of non-negative counts to the table's denominations that sums to
the target uses strictly fewer coins than `GreedyStrategy::make_change`. -/
theorem c3_greedy_optimal_reference_tables :
    (∀ (target : Nat) (counts : List Nat),
        counts.length = USD.denominations.length →
        lineValue USD.denominations counts = target →
        ¬ counts.sum < breakdownCoins (greedy_make_change target USD.denominations))
    ∧ (∀ (target : Nat) (counts : List Nat),
        counts.length = EUR.denominations.length →
        lineValue EUR.denominations counts = target →
        ¬ counts.sum < breakdownCoins (greedy_make_change target EUR.denominations)) := by
  constructor
  · intro target counts hlen hval
    rw [usd_coins_formula, Nat.not_lt]
    rcases counts with _ | ⟨a, _ | ⟨b, _ | ⟨c, _ | ⟨d, _ | ⟨e, _ | ⟨x, rest⟩⟩⟩⟩⟩⟩ <;>
      simp [USD] at hlen
    simp only [lineValue, USD, List.zipWith, List.sum_cons, List.sum_nil] at hval
    have h := usd_min_coins (a + b + c + d + e) a b c d e target (le_refl _) (by omega)
    refine le_trans h ?_
    simp [Nat.add_assoc]
  · intro target counts hlen hval
    rw [eur_coins_formula, Nat.not_lt]
    rcases counts with
      _ | ⟨a, _ | ⟨b, _ | ⟨c, _ | ⟨d, _ | ⟨e, _ | ⟨f, _ | ⟨g, _ | ⟨k, _ | ⟨x, rest⟩⟩⟩⟩⟩⟩⟩⟩⟩ <;>
      simp [EUR] at hlen
    simp only [lineValue, EUR, List.zipWith, List.sum_cons, List.sum_nil] at hval
    have h := eur_min_coins (a + b + c + d + e + f + g + k) a b c d e f g k target
      (le_refl _) (by omega)
    refine le_trans h ?_
    simp [Nat.add_assoc]

/-! ## Parsing: `src/parse.rs` -/

/-- The Unicode white-space characters recognized by `char::is_whitespace`,
which `str::trim` strips from both ends. -/
def isRustWhitespace (c : Char) : Bool :=
  (9 ≤ c.toNat && c.toNat ≤ 13) || c.toNat = 32 || c.toNat = 133 || c.toNat = 160
    || c.toNat = 5760 || (8192 ≤ c.toNat && c.toNat ≤ 8202) || c.toNat = 8232
    || c.toNat = 8233 || c.toNat = 8239 || c.toNat = 8287 || c.toNat = 12288

/-- `str::trim`: drop white space from both ends. -/
def rustTrim (cs : List Char) : List Char :=
  ((cs.dropWhile isRustWhitespace).reverse.dropWhile isRustWhitespace).reverse

/-- `str::split_once(sep)`: the pieces before and after the first occurrence
of `sep`, or `none` when `sep` does not occur. -/
def splitOnce (sep : Char) : List Char → Option (List Char × List Char)
  | [] => none
  | x :: xs =>
    if x = sep then some ([], xs)
    else
      match splitOnce sep xs with
      | none => none
      | some (l, r) => some (x :: l, r)

/-- ASCII digit test, as `u32::from_str` accepts digits `0`-`9` only. -/
def isAsciiDigit (c : Char) : Bool := 48 ≤ c.toNat && c.toNat ≤ 57

/-- The value of a string of ASCII digits, most significant first. -/
def digitsToNat (cs : List Char) : Nat :=
  cs.foldl (fun acc c => acc * 10 + (c.toNat - 48)) 0

/-- The first value outside `u32`, `2 ^ 32`. -/
def U32LIM : Nat := 4294967296

/-- `<u32 as FromStr>::from_str`: an optional leading `+`, then one or more
ASCII digits; fails on any other character and on values above `u32::MAX`. -/
def parseU32 (cs : List Char) : Option Nat :=
  let ds := match cs with
    | '+' :: rest => rest
    | _ => cs
  if ds.isEmpty then none
  else if ds.all isAsciiDigit then
    if digitsToNat ds < U32LIM then some (digitsToNat ds) else none
  else none

/-- The fractional-part padding of `parse_dollars_to_cents`: a single digit
means tenths, so it receives a trailing zero; anything else is verbatim. -/
def padCents (cs : List Char) : List Char :=
  if cs.length = 1 then cs ++ ['0'] else cs

/-- `parse_dollars_to_cents` from `parse.rs`: trim, reject the empty string,
split at the first `.`; with no separator the whole-number value times 100,
otherwise the dollar part times 100 plus the (padded, at most two digit)
cents part.  The two unchecked `u32` operations are taken mod `2 ^ 32`. -/
def parse_dollars_to_cents (s : List Char) : Except String Nat :=
  let t := rustTrim s
  if t.isEmpty then .error "empty string"
  else
    match splitOnce '.' t with
    | none =>
      match parseU32 t with
      | none => .error ("not a valid number: \"" ++ t.asString ++ "\"")
      | some dollars => .ok (dollars * 100 % U32LIM)
    | some (dollars_str, cents_str) =>
      if 2 < cents_str.length then
        .error ("too many decimal places: \"" ++ t.asString ++ "\"")
      else
        match parseU32 dollars_str with
        | none => .error ("invalid dollar part: \"" ++ t.asString ++ "\"")
        | some dollars =>
          match parseU32 (padCents cents_str) with
          | none => .error ("invalid cents part: \"" ++ t.asString ++ "\"")
          | some cents => .ok ((dollars * 100 % U32LIM + cents) % U32LIM)

/-- `Transaction` from `parse.rs`: amounts in cents. -/
structure Transaction where
  owed_cents : Nat
  paid_cents : Nat
  change_cents : Nat
deriving DecidableEq

/-- `CashRegisterError` from `error.rs`, without the `Io` variant (it wraps
I/O failures of the surrounding application, never produced by parsing). -/
inductive CashRegisterError where
  | InvalidAmount (line : Nat) (input : String)
  | Underpayment (line : Nat) (owed : String) (paid : String)
  | MalformedLine (line : Nat) (detail : String)
deriving DecidableEq

/-- `parse_line` from `parse.rs`: trim the line, split at the first comma
(its absence is `MalformedLine`), parse both sides (a failure is
`InvalidAmount` carrying the trimmed token), reject `paid < owed` as
`Underpayment`, otherwise build the transaction with
`change = paid - owed`. -/
def parse_line (line : List Char) (line_number : Nat) :
    Except CashRegisterError Transaction :=
  let t := rustTrim line
  match splitOnce ',' t with
  | none =>
    .error (.MalformedLine line_number
      ("expected \"owed,paid\" but got \"" ++ t.asString ++ "\""))
  | some (owed_str, paid_str) =>
    match parse_dollars_to_cents owed_str with
    | .error _ => .error (.InvalidAmount line_number (rustTrim owed_str).asString)
    | .ok owed_cents =>
      match parse_dollars_to_cents paid_str with
      | .error _ => .error (.InvalidAmount line_number (rustTrim paid_str).asString)
      | .ok paid_cents =>
        if paid_cents < owed_cents then
          .error (.Underpayment line_number
            (rustTrim owed_str).asString (rustTrim paid_str).asString)
        else
          .ok { owed_cents := owed_cents, paid_cents := paid_cents,
                change_cents := paid_cents - owed_cents }

/-- One step of `str::lines`: `cur` holds the current line reversed; at a
`\\n` the line is emitted, shedding the `\\r` of a `\\r\\n` ending; a final
line is emitted only when non-empty (the last line ending is optional). -/
def linesAux (cur : List Char) : List Char → List (List Char)
  | [] => if cur.isEmpty then [] else [cur.reverse]
  | c :: rest =>
    if c = '\n' then
      (if cur.head? = some '\r' then cur.tail else cur).reverse :: linesAux [] rest
    else linesAux (c :: cur) rest

/-- `str::lines`: split at every `\n`, shedding `\r\n` endings; the final
line ending is optional, and an empty input yields no lines. -/
def rustLines (cs : List Char) : List (List Char) := linesAux [] cs

/-- `parse_input` from `parse.rs`: enumerate the input's lines, skip the
blank ones, and parse each survivor with its 1-indexed line number. -/
def parse_input (input : List Char) : List (Except CashRegisterError Transaction) :=
  (((rustLines input).enum).filter (fun p => !(rustTrim p.2).isEmpty)).map
    (fun p => parse_line p.2 (p.1 + 1))

/-! ## Dispatch: `src/rules.rs` -/

/-- `make_change_for` from `rules.rs`: an exact payment yields the empty
breakdown; when `divisor > 0` and the owed amount is a multiple of it
(`u32::is_multiple_of`), the random strategy runs, otherwise greedy.  The
random source passes through untouched on the greedy path. -/
def make_change_for {σ : Type} (transaction : Transaction) (currency : Currency)
    (divisor : Nat) (gen : σ → Nat → Nat × σ) (s : σ) :
    List (Denomination × Nat) × σ :=
  if transaction.change_cents = 0 then ([], s)
  else if 0 < divisor ∧ transaction.owed_cents % divisor = 0 then
    randomMakeChange gen transaction.change_cents currency.denominations s
  else (greedy_make_change transaction.change_cents currency.denominations, s)

example : parse_dollars_to_cents "2.13".toList = .ok 213 := by rfl

example : parse_line "2.12,3.00".toList 1
    = .ok { owed_cents := 212, paid_cents := 300, change_cents := 88 } := by rfl

example : parse_line "1,2,3".toList 1 = .error (.InvalidAmount 1 "2,3") := by rfl

example : (parse_input "2.12,3.00\n\n1.97,2.00\n".toList).length = 2 := by rfl

/-! ## Claims about parsing and dispatch -/

theorem splitOnce_eq_none_iff (sep : Char) :
    ∀ cs : List Char, splitOnce sep cs = none ↔ sep ∉ cs := by
  intro cs
  induction cs with
  | nil => simp [splitOnce]
  | cons x xs ih =>
    by_cases hx : x = sep
    · subst hx
      simp [splitOnce]
    · cases hs : splitOnce sep xs with
      | none =>
        simp only [splitOnce, if_neg hx, hs, List.mem_cons]
        have hxs : sep ∉ xs := ih.mp hs
        simp only [true_iff]
        rintro (h | h)
        · exact hx h.symm
        · exact hxs h
      | some p =>
        rcases p with ⟨l, r⟩
        simp only [splitOnce, if_neg hx, hs, List.mem_cons]
        constructor
        · intro h; cases h
        · intro h
          exfalso
          apply h
          right
          by_contra hmem
          rw [ih.mpr hmem] at hs
          cases hs

theorem mem_dropWhile_of_neg {p : Char → Bool} {a : Char} (ha : p a = false) :
    ∀ l : List Char, a ∈ l.dropWhile p ↔ a ∈ l := by
  intro l
  induction l with
  | nil => simp
  | cons x xs ih =>
    by_cases hx : p x
    · rw [List.dropWhile_cons_of_pos hx, ih, List.mem_cons]
      constructor
      · exact fun h => Or.inr h
      · rintro (rfl | h)
        · rw [hx] at ha; cases ha
        · exact h
    · rw [List.dropWhile_cons_of_neg (by simpa using hx)]

/-- Trimming never removes a non-white-space character. -/
theorem mem_rustTrim {a : Char} (ha : isRustWhitespace a = false) (cs : List Char) :
    a ∈ rustTrim cs ↔ a ∈ cs := by
  unfold rustTrim
  rw [List.mem_reverse, mem_dropWhile_of_neg ha, List.mem_reverse,
    mem_dropWhile_of_neg ha]

/-- C4 counterexample: `"1,2,3"` does not split into exactly two
comma-separated tokens, yet `parse_line` classifies it as `InvalidAmount`
(the extra comma lands inside the paid token), not `MalformedLine`. -/
theorem c4_two_commas_counterexample :
    ("1,2,3".toList.splitOn ',').length ≠ 2
    ∧ parse_line "1,2,3".toList 1 = .error (.InvalidAmount 1 "2,3") :=
  ⟨by decide, rfl⟩

/-- C4 amended: `parse_line` returns `MalformedLine` exactly when the line
contains no comma at all; a line with two or more commas parses the text
after the first comma as the paid amount and fails as `InvalidAmount`. -/
theorem c4_malformed_iff_no_comma (line : List Char) (line_number : Nat) :
    (∃ detail, parse_line line line_number
        = .error (.MalformedLine line_number detail))
      ↔ ',' ∉ line := by
  rw [← mem_rustTrim (a := ',') (by decide) line]
  cases hsp : splitOnce ',' (rustTrim line) with
  | none =>
    simp only [parse_line, hsp]
    constructor
    · intro _
      exact ((splitOnce_eq_none_iff ',' (rustTrim line)).mp hsp)
    · intro _
      exact ⟨_, rfl⟩
  | some pair =>
    rcases pair with ⟨os, ps⟩
    simp only [parse_line, hsp]
    constructor
    · rintro ⟨detail, hd⟩
      exfalso
      cases hpo : parse_dollars_to_cents os with
      | error e => rw [hpo] at hd; simp at hd
      | ok o =>
        cases hpp : parse_dollars_to_cents ps with
        | error e => rw [hpo, hpp] at hd; simp at hd
        | ok p =>
          rw [hpo, hpp] at hd
          by_cases hlt : p < o <;> simp [hlt] at hd
    · intro hmem
      exfalso
      have := (splitOnce_eq_none_iff ',' (rustTrim line)).mpr hmem
      rw [this] at hsp
      cases hsp

/-- C5: the dispatch rule — an exact payment short-circuits to the empty
breakdown; otherwise a positive divisor dividing the owed amount selects the
random strategy, and every other case (divisor zero included, whatever the
owed amount) selects greedy. -/
theorem c5_dispatch_rule {σ : Type} (transaction : Transaction) (currency : Currency)
    (divisor : Nat) (gen : σ → Nat → Nat × σ) (s : σ) :
    (transaction.change_cents = 0 →
      make_change_for transaction currency divisor gen s = ([], s))
    ∧ (transaction.change_cents ≠ 0 → 0 < divisor →
        transaction.owed_cents % divisor = 0 →
        make_change_for transaction currency divisor gen s
          = randomMakeChange gen transaction.change_cents currency.denominations s)
    ∧ (transaction.change_cents ≠ 0 →
        (divisor = 0 ∨ transaction.owed_cents % divisor ≠ 0) →
        make_change_for transaction currency divisor gen s
          = (greedy_make_change transaction.change_cents currency.denominations, s)) := by
  refine ⟨fun h0 => ?_, fun h0 hdiv hmul => ?_, fun h0 hother => ?_⟩
  · simp [make_change_for, h0]
  · simp [make_change_for, h0, hdiv, hmul]
  · rcases hother with hz | hnm
    · simp [make_change_for, h0, hz]
    · simp [make_change_for, h0, hnm]

/-- C7: when both comma-separated sides of a line parse as amounts, the line
fails with `Underpayment` exactly when `paid < owed`, and otherwise succeeds
with `change = paid - owed`; concretely, `"2.12,3.00"` yields owed 212, paid
300, change 88, `"5.00,3.00"` is an underpayment, and `"5.00"` (no comma) is
a malformed line. -/
theorem c7_validator_contract :
    (∀ (line : List Char) (n : Nat) (os ps : List Char) (o p : Nat),
        splitOnce ',' (rustTrim line) = some (os, ps) →
        parse_dollars_to_cents os = .ok o →
        parse_dollars_to_cents ps = .ok p →
        ((p < o ↔ parse_line line n
            = .error (.Underpayment n (rustTrim os).asString (rustTrim ps).asString))
         ∧ (o ≤ p → parse_line line n
            = .ok { owed_cents := o, paid_cents := p, change_cents := p - o })))
    ∧ parse_line "2.12,3.00".toList 1
        = .ok { owed_cents := 212, paid_cents := 300, change_cents := 88 }
    ∧ parse_line "5.00,3.00".toList 1 = .error (.Underpayment 1 "5.00" "3.00")
    ∧ parse_line "5.00".toList 1
        = .error (.MalformedLine 1 "expected \"owed,paid\" but got \"5.00\"") := by
  refine ⟨?_, rfl, rfl, rfl⟩
  intro line n os ps o p hsp ho hp
  constructor
  · constructor
    · intro hlt
      simp only [parse_line, hsp, ho, hp, if_pos hlt]
    · intro heq
      by_cases hlt : p < o
      · exact hlt
      · exfalso
        simp only [parse_line, hsp, ho, hp, if_neg hlt] at heq
        cases heq
  · intro hle
    have hnlt : ¬ p < o := Nat.not_lt.mpr hle
    simp only [parse_line, hsp, ho, hp, if_neg hnlt]

/-- C9: the amount parser on the specification's examples — `"2.13"` is 213
(`2 * 100 + 13`), `"3"` is 300, `"3.1"` is 310 (a single fractional digit
means tenths), while `"2.123"`, `""` and `"abc"` fail. -/
theorem c9_amount_parser_examples :
    parse_dollars_to_cents "2.13".toList = .ok (2 * 100 + 13)
    ∧ parse_dollars_to_cents "3".toList = .ok (3 * 100)
    ∧ parse_dollars_to_cents "3.1".toList = .ok (3 * 100 + 10)
    ∧ parse_dollars_to_cents "2.123".toList
        = .error "too many decimal places: \"2.123\""
    ∧ parse_dollars_to_cents "".toList = .error "empty string"
    ∧ parse_dollars_to_cents "abc".toList = .error "not a valid number: \"abc\"" :=
  ⟨rfl, rfl, rfl, rfl, rfl, rfl⟩

/-- C8: the batch parser returns exactly one result per non-blank line of the
input; each slot holds the independent evaluation of its own line with that
line's original 1-indexed number, in input order, so no line's failure
affects any other slot; blank lines are filtered out before parsing and
consume no slot. -/
theorem c8_batch_contract (input : List Char) :
    (parse_input input).length
      = (((rustLines input).enum).filter (fun p => !(rustTrim p.2).isEmpty)).length
    ∧ (∀ (j i : Nat) (l : List Char),
        (((rustLines input).enum).filter (fun p => !(rustTrim p.2).isEmpty)).get? j
          = some (i, l) →
        (parse_input input).get? j = some (parse_line l (i + 1)))
    ∧ (∀ (i : Nat) (l : List Char),
        (i, l) ∈ ((rustLines input).enum).filter (fun p => !(rustTrim p.2).isEmpty) →
        rustTrim l ≠ []) := by
  refine ⟨?_, ?_, ?_⟩
  · simp [parse_input]
  · intro j i l hj
    simp only [parse_input, List.get?_map, hj]
    rfl
  · intro i l hmem
    have h := List.of_mem_filter hmem
    simpa [List.isEmpty_iff] using h

/-- C10: the parser's `u32` arithmetic stays in bounds for every grammar-valid
input whose whole-dollar part is at most 42,949,672 and whose denoted value
is at most `u32::MAX`: both `dollars * 100` and `dollars * 100 + cents` stay
below `2 ^ 32`, so the wrapped operations compute the exact value.  The first
conjunct covers whole-number inputs, the second inputs with a fraction. -/
theorem c10_parser_u32_bounds :
    (∀ (s : List Char) (w : Nat),
        splitOnce '.' (rustTrim s) = none →
        parseU32 (rustTrim s) = some w →
        w ≤ 42949672 →
        w * 100 ≤ 4294967295 ∧ parse_dollars_to_cents s = .ok (w * 100))
    ∧ (∀ (s : List Char) (ds fs : List Char) (w f : Nat),
        splitOnce '.' (rustTrim s) = some (ds, fs) →
        parseU32 ds = some w →
        fs.length ≤ 2 →
        parseU32 (padCents fs) = some f →
        w ≤ 42949672 →
        w * 100 + f ≤ 4294967295 →
        w * 100 ≤ 4294967295 ∧ parse_dollars_to_cents s = .ok (w * 100 + f)) := by
  constructor
  · intro s w hsp hw hb
    have hne : (rustTrim s).isEmpty = false := by
      cases ht : rustTrim s with
      | nil => rw [ht] at hw; simp [parseU32] at hw
      | cons x xs => simp
    refine ⟨by omega, ?_⟩
    simp only [parse_dollars_to_cents, hne, Bool.false_eq_true, if_false, hsp, hw]
    have hmod : w * 100 % U32LIM = w * 100 :=
      Nat.mod_eq_of_lt (by unfold U32LIM; omega)
    rw [hmod]
  · intro s ds fs w f hsp hwp hlen hfp hwb hvb
    have hne : (rustTrim s).isEmpty = false := by
      cases ht : rustTrim s with
      | nil => rw [ht] at hsp; simp [splitOnce] at hsp
      | cons x xs => simp
    have hlen2 : ¬ 2 < fs.length := Nat.not_lt.mpr hlen
    refine ⟨by omega, ?_⟩
    simp only [parse_dollars_to_cents, hne, Bool.false_eq_true, if_false, hsp,
      if_neg hlen2, hwp, hfp]
    have h1 : w * 100 % U32LIM = w * 100 :=
      Nat.mod_eq_of_lt (by unfold U32LIM; omega)
    rw [h1]
    have h2 : (w * 100 + f) % U32LIM = w * 100 + f :=
      Nat.mod_eq_of_lt (by unfold U32LIM; omega)
    rw [h2]

/-- C3 witness: the greedy breakdown of 88 cents over USD (3 quarters, 1
dime, 3 pennies) is not beaten by that very assignment of counts. -/
theorem c3_greedy_optimal_witness :
    ¬ ([0, 3, 1, 0, 3] : List Nat).sum
        < breakdownCoins (greedy_make_change 88 USD.denominations) :=
  c3_greedy_optimal_reference_tables.1 88 [0, 3, 1, 0, 3] (by decide) (by decide)

/-- C4 witness for the amended claim: `"5.00"` holds no comma, so its parse
is a `MalformedLine` error. -/
theorem c4_malformed_iff_no_comma_witness :
    ∃ detail, parse_line "5.00".toList 1 = .error (.MalformedLine 1 detail) :=
  (c4_malformed_iff_no_comma "5.00".toList 1).mpr (by decide)

/-- C5 witness: owed 333 is divisible by 3, so the transaction of the
repository's `divisible_by_3_uses_random` test dispatches to the random
strategy. -/
theorem c5_dispatch_rule_witness :
    make_change_for { owed_cents := 333, paid_cents := 500, change_cents := 167 }
        USD 3 genModel 42
      = randomMakeChange genModel 167 USD.denominations 42 :=
  (c5_dispatch_rule { owed_cents := 333, paid_cents := 500, change_cents := 167 }
    USD 3 genModel 42).2.1 (by decide) (by decide) (by decide)

/-- C7 witness: the underpayment line `"5.00,3.00"` through the general
contract. -/
theorem c7_validator_contract_witness :
    parse_line "5.00,3.00".toList 1 = .error (.Underpayment 1 "5.00" "3.00") :=
  ((c7_validator_contract.1 "5.00,3.00".toList 1 "5.00".toList "3.00".toList
    500 300 rfl rfl rfl).1).mp (by decide)

/-- C8 witness: the three-line input of the repository's integration test has
as many results as non-blank lines. -/
theorem c8_batch_contract_witness :
    (parse_input "2.12,3.00\n\n1.97,2.00\n".toList).length
      = (((rustLines "2.12,3.00\n\n1.97,2.00\n".toList).enum).filter
          (fun p => !(rustTrim p.2).isEmpty)).length :=
  (c8_batch_contract "2.12,3.00\n\n1.97,2.00\n".toList).1

/-- C10 witness: `"2.13"` satisfies the bounds and parses to `2 * 100 + 13`
with no wrap-around. -/
theorem c10_parser_u32_bounds_witness :
    2 * 100 ≤ 4294967295
    ∧ parse_dollars_to_cents "2.13".toList = .ok (2 * 100 + 13) :=
  c10_parser_u32_bounds.2 "2.13".toList "2".toList "13".toList 2 13
    rfl rfl (by decide) rfl (by decide) (by decide)
